import Mathlib

/-!
# Verification of `flexget/utils/parsers/parser.py` (`TitleParser` static helpers)

Shallow embedding of the four static helpers of `TitleParser`:

* `strip_spaces(text)`  = `' '.join(text.split())`
* `remove_words(text, words, not_in_word=False)` — folds `ireplace(text, word, '')`
  over the vocabulary, then `' '.join(text.split())`
* `ireplace(data, old, new, count=0, not_in_word=False)` — `re.escape(old)`,
  optionally wrapped by `re_not_in_word`, compiled with `re.IGNORECASE`, then
  `re.sub(pattern, new, data, count=count)`
* `re_not_in_word(regexp)` = `r'(?<![^\W_])' + regexp + r'(?![^\W_])'`

Strings are modelled as `String` / `List Char` over the ASCII fragment:
Python's `str.split()` whitespace set is modelled by `isPySpace`
(space, tab, newline, carriage return, vertical tab, form feed), the
character class `[^\W_]` (word character that is not an underscore, i.e. a
letter or digit) by `Char.isAlphanum`, and `re.IGNORECASE` by comparing
`Char.toLower` images.  Since `old` is passed through `re.escape`, the
compiled pattern is a case-insensitive *literal* matcher for `old`,
optionally guarded by the two lookarounds of `re_not_in_word`; `re.sub` is
modelled by the left-to-right non-overlapping scan `subAux` (Python ≥ 3.7
empty-match semantics), and the processing of the replacement template by
`parseTemplateAux` (which can fail, as `re.sub` raises `re.error` on an
invalid template; failure is modelled by `Except.error`).
-/

namespace TitleParser

/-- Python `str.split()` whitespace, ASCII fragment: `' '`, `\t`, `\n`, `\r`,
`\x0b` (vertical tab), `\x0c` (form feed). -/
def isPySpace (c : Char) : Bool :=
  c == ' ' || c == '\t' || c == '\n' || c == '\r' || c == '\x0b' || c == '\x0c'

/-- Accumulator-based model of Python `str.split()` (split on runs of
whitespace, dropping empty pieces).  `acc` holds the reversed current word. -/
def splitAux : List Char → List Char → List (List Char)
  | [], acc => if acc = [] then [] else [acc.reverse]
  | c :: cs, acc =>
      if isPySpace c then (if acc = [] then [] else [acc.reverse]) ++ splitAux cs []
      else splitAux cs (c :: acc)

/-- Model of `text.split()` on a character list. -/
def pysplit (l : List Char) : List (List Char) := splitAux l []

/-- Model of `' '.join(words)` on character lists. -/
def joinWords : List (List Char) → List Char
  | [] => []
  | [w] => w
  | w :: x :: ws => w ++ ' ' :: joinWords (x :: ws)

/-- Model of `TitleParser.strip_spaces(text)`, i.e. `' '.join(text.split())`. -/
def strip_spaces (text : String) : String :=
  ⟨joinWords (pysplit text.data)⟩

/-- One item of a parsed `re.sub` replacement template: a literal chunk, or a
reference to group 0 (`\g<0>`, the whole match).  `re.escape(old)` contains no
capturing groups, so group 0 is the only group a valid template can cite. -/
inductive TmplItem
  | lit : List Char → TmplItem
  | group0 : TmplItem

/-- Expand a parsed template against the matched text. -/
def expandRepl : List TmplItem → List Char → List Char
  | [], _ => []
  | .lit s :: rest, m => s ++ expandRepl rest m
  | .group0 :: rest, m => m ++ expandRepl rest m

/-- Case-insensitive literal match of the (already lowercased) pattern `pat`
against a prefix of `s` — the `re.IGNORECASE` literal matcher. -/
def matchHere : List Char → List Char → Bool
  | [], _ => true
  | _ :: _, [] => false
  | p :: ps, c :: cs => p == c.toLower && matchHere ps cs

/-- The lookbehind `(?<![^\W_])` of `re_not_in_word`: the character before the
match (if any) is not a letter or digit.  An underscore is *not* in `[^\W_]`,
so an underscore before the match satisfies the lookbehind. -/
def okBefore : Option Char → Bool
  | none => true
  | some c => !c.isAlphanum

/-- The lookahead `(?![^\W_])` of `re_not_in_word`: the character after the
match (if any) is not a letter or digit (an underscore is allowed). -/
def okAfter : List Char → Bool
  | [] => true
  | c :: _ => !c.isAlphanum

/-- Whether the compiled pattern of `ireplace` matches at the current scan
position: `prev` is the character just before the position (`none` at the
start of the string), `s` the rest of the input.  With `niw = true` the two
lookarounds of `re_not_in_word` are checked as well. -/
def matchesAtB (pat : List Char) (niw : Bool) (prev : Option Char) (s : List Char) : Bool :=
  matchHere pat s && (!niw || (okBefore prev && okAfter (s.drop pat.length)))

/-- Decrement the remaining-replacements counter (`none` = unlimited,
modelling `count=0`). -/
def decr : Option Nat → Option Nat
  | none => none
  | some 0 => some 0
  | some (k + 1) => some k

/-- The `re.sub` scan: left-to-right, non-overlapping, Python ≥ 3.7 semantics
for empty matches (an empty match consumes one character of output after the
replacement; an empty match directly after a non-empty one is allowed).
Lookarounds inspect the *original* input, hence the `prev` argument carries
the last original character before the scan position.  `fuel` is an upper
bound on the number of steps; every step consumes at least one input
character, so `fuel = s.length` suffices. -/
def subAux (pat : List Char) (niw : Bool) (repl : List TmplItem) :
    Nat → Option Char → List Char → Option Nat → List Char
  | _, prev, [], rem =>
      if rem = some 0 then []
      else if pat = [] && (!niw || okBefore prev) then expandRepl repl [] else []
  | 0, _, s, _ => s
  | fuel + 1, prev, c :: cs, rem =>
      if rem = some 0 then c :: cs
      else if matchesAtB pat niw prev (c :: cs) then
        match pat with
        | [] => expandRepl repl [] ++ c :: subAux pat niw repl fuel (some c) cs (decr rem)
        | _ :: ps =>
            expandRepl repl (c :: cs.take ps.length) ++
              subAux pat niw repl fuel (c :: cs.take ps.length).getLast?
                (cs.drop ps.length) (decr rem)
      else c :: subAux pat niw repl fuel (some c) cs rem

/-- Model of `re.sub(re.compile(pat, re.IGNORECASE), repl_template, data, count)` for a
literal (escaped) pattern `old`, with already-parsed template `repl`.
`count = 0` means unlimited, as in Python. -/
def ireplaceCore (data old : String) (repl : List TmplItem) (count : Nat) (niw : Bool) : String :=
  ⟨subAux (old.data.map Char.toLower) niw repl data.data.length none data.data
    (if count = 0 then none else some count)⟩

/-- Is this an octal digit? -/
def isOct (c : Char) : Bool := '0' ≤ c && c ≤ '7'

/-- Numeric value of a digit list (decimal). -/
def digitsVal (l : List Char) : Nat :=
  l.foldl (fun a c => a * 10 + (c.toNat - '0'.toNat)) 0

/-- Octal value of up to three octal digits. -/
def octVal (l : List Char) : Nat :=
  l.foldl (fun a c => a * 8 + (c.toNat - '0'.toNat)) 0

/-- Split a group name at the closing `>` of `\g<...>`. -/
def splitAtGt : List Char → Option (List Char × List Char)
  | [] => none
  | c :: cs =>
      if c == '>' then some ([], cs)
      else match splitAtGt cs with
        | none => none
        | some (n, r) => some (c :: n, r)

/-- Model of `sre_parse.parse_template` (ASCII fragment) for a pattern with no
capturing groups, as produced by `re.escape`:
`\\` and the known escapes `\a \b \f \n \r \t \v` become literal characters;
`\0` starts an octal escape of up to three octal digits; `\` + a nonzero digit
is an octal escape when exactly three octal digits follow the backslash and an
invalid group reference otherwise (the pattern has no groups); `\g<num>` is
valid only for group 0; any other escaped ASCII letter is a bad escape; a
backslash before a non-alphanumeric character is kept literally; a trailing
backslash is an error.  `fuel ≥` input length suffices. -/
def parseTemplateAux : Nat → List Char → Except String (List TmplItem)
  | _, [] => .ok []
  | 0, _ => .error "bad template"
  | fuel + 1, c :: cs =>
      if c == '\\' then
        match cs with
        | [] => .error "bad escape (end of pattern)"
        | e :: rest =>
          if e == '\\' then
            (parseTemplateAux fuel rest).map (fun t => .lit ['\\'] :: t)
          else if e == 'n' then (parseTemplateAux fuel rest).map (fun t => .lit ['\n'] :: t)
          else if e == 't' then (parseTemplateAux fuel rest).map (fun t => .lit ['\t'] :: t)
          else if e == 'r' then (parseTemplateAux fuel rest).map (fun t => .lit ['\r'] :: t)
          else if e == 'v' then (parseTemplateAux fuel rest).map (fun t => .lit ['\x0b'] :: t)
          else if e == 'f' then (parseTemplateAux fuel rest).map (fun t => .lit ['\x0c'] :: t)
          else if e == 'a' then (parseTemplateAux fuel rest).map (fun t => .lit ['\x07'] :: t)
          else if e == 'b' then (parseTemplateAux fuel rest).map (fun t => .lit ['\x08'] :: t)
          else if e == 'g' then
            match rest with
            | '<' :: r2 =>
                match splitAtGt r2 with
                | none => .error "missing >, unterminated name"
                | some (name, r3) =>
                    if name = [] then .error "missing group name"
                    else if name.all Char.isDigit then
                      if digitsVal name = 0 then
                        (parseTemplateAux fuel r3).map (fun t => .group0 :: t)
                      else .error "invalid group reference"
                    else .error "unknown group name"
            | _ => .error "missing <"
          else if e == '0' then
            match rest with
            | d2 :: d3 :: r3 =>
                if isOct d2 && isOct d3 then
                  (parseTemplateAux fuel r3).map
                    (fun t => .lit [Char.ofNat (octVal [d2, d3])] :: t)
                else if isOct d2 then
                  (parseTemplateAux fuel (d3 :: r3)).map
                    (fun t => .lit [Char.ofNat (octVal [d2])] :: t)
                else (parseTemplateAux fuel rest).map (fun t => .lit ['\x00'] :: t)
            | [d2] =>
                if isOct d2 then
                  (parseTemplateAux fuel []).map
                    (fun t => .lit [Char.ofNat (octVal [d2])] :: t)
                else (parseTemplateAux fuel rest).map (fun t => .lit ['\x00'] :: t)
            | [] => (parseTemplateAux fuel []).map (fun t => .lit ['\x00'] :: t)
          else if e.isDigit then
            match rest with
            | d2 :: d3 :: r3 =>
                if isOct e && isOct d2 && isOct d3 then
                  if octVal [e, d2, d3] ≤ 255 then
                    (parseTemplateAux fuel r3).map
                      (fun t => .lit [Char.ofNat (octVal [e, d2, d3])] :: t)
                  else .error "octal escape value outside of range"
                else .error "invalid group reference"
            | _ => .error "invalid group reference"
          else if e.isAlpha then .error "bad escape"
          else (parseTemplateAux fuel rest).map (fun t => .lit ['\\', e] :: t)
      else (parseTemplateAux fuel cs).map (fun t => .lit [c] :: t)

/-- Parse a replacement string as `re.sub` does before substituting. -/
def parseTemplate (new : String) : Except String (List TmplItem) :=
  parseTemplateAux new.data.length new.data

/-- Model of `TitleParser.ireplace(data, old, new, count=0, not_in_word=False)`.
`re.sub` parses the replacement template eagerly and raises `re.error` on an
invalid one, modelled by `Except.error`. -/
def ireplace (data old new : String) (count : Nat := 0) (niw : Bool := false) :
    Except String String :=
  match parseTemplate new with
  | .error e => .error e
  | .ok items => .ok (ireplaceCore data old items count niw)

/-- Model of `TitleParser.remove_words(text, words, not_in_word=False)`: fold
`ireplace(text, word, '')` over the vocabulary, then `' '.join(text.split())`.
The replacement `''` always parses (to the empty template), so no error can
occur and the fold uses `ireplaceCore` directly. -/
def remove_words (text : String) (words : List String) (niw : Bool := false) : String :=
  ⟨joinWords (pysplit (words.foldl (fun t w => ireplaceCore t w [] 0 niw) text).data)⟩

/-- Concatenation of a list of words (no separators). -/
def flatWords : List (List Char) → List Char
  | [] => []
  | w :: ws => w ++ flatWords ws

/-- A word is whitespace-free. -/
def WsFree (w : List Char) : Prop := ∀ c ∈ w, isPySpace c = false

theorem flatWords_append (a b : List (List Char)) :
    flatWords (a ++ b) = flatWords a ++ flatWords b := by
  induction a with
  | nil => simp [flatWords]
  | cons w ws ih => simp [flatWords, ih]

theorem splitAux_words (l : List Char) : ∀ acc, WsFree acc →
    ∀ w ∈ splitAux l acc, w ≠ [] ∧ WsFree w := by
  induction l with
  | nil =>
    intro acc hacc w hw
    by_cases h : acc = [] <;> simp [splitAux, h] at hw
    subst hw
    refine ⟨by simpa using h, ?_⟩
    intro c hc
    exact hacc c (by simpa using hc)
  | cons c cs ih =>
    intro acc hacc w hw
    by_cases hc : isPySpace c
    · simp only [splitAux, hc, if_pos] at hw
      rcases List.mem_append.mp hw with h1 | h2
      · by_cases h : acc = [] <;> simp [h] at h1
        subst h1
        refine ⟨by simpa using h, ?_⟩
        intro x hx
        exact hacc x (by simpa using hx)
      · exact ih [] (by intro x hx; simp at hx) w h2
    · simp only [splitAux, hc, if_neg, Bool.false_eq_true, not_false_iff] at hw
      refine ih (c :: acc) ?_ w hw
      intro x hx
      rcases List.mem_cons.mp hx with h | h
      · subst h; simpa using hc
      · exact hacc x h

theorem pysplit_words (l : List Char) : ∀ w ∈ pysplit l, w ≠ [] ∧ WsFree w :=
  splitAux_words l [] (by intro c hc; simp at hc)

theorem flatWords_splitAux (l : List Char) : ∀ acc,
    flatWords (splitAux l acc) = acc.reverse ++ l.filter (fun c => !isPySpace c) := by
  induction l with
  | nil =>
    intro acc
    by_cases h : acc = [] <;> simp [splitAux, h, flatWords]
  | cons c cs ih =>
    intro acc
    by_cases hc : isPySpace c
    · by_cases h : acc = [] <;>
        simp [splitAux, hc, h, flatWords, flatWords_append, ih, List.filter_cons]
    · simp [splitAux, hc, ih (c :: acc), List.filter_cons]

theorem isPySpace_space : isPySpace ' ' = true := rfl

theorem joinWords_filter (W : List (List Char)) (h : ∀ w ∈ W, WsFree w) :
    (joinWords W).filter (fun c => !isPySpace c) = flatWords W := by
  induction W with
  | nil => simp [joinWords, flatWords]
  | cons w rest ih =>
    have hw : WsFree w := h w (List.mem_cons_self _ _)
    have hwfilter : w.filter (fun c => !isPySpace c) = w := by
      apply List.filter_eq_self.mpr
      intro a ha
      simpa using hw a ha
    cases rest with
    | nil => simpa [joinWords, flatWords] using hwfilter
    | cons x ws =>
      have ih' := ih (by intro u hu; exact h u (List.mem_cons_of_mem _ hu))
      simp [joinWords, flatWords, List.filter_append, List.filter_cons,
        isPySpace_space, hwfilter, ih']

theorem joinWords_ne_nil (w : List Char) (rest : List (List Char)) (hw : w ≠ []) :
    joinWords (w :: rest) ≠ [] := by
  cases rest with
  | nil => simpa [joinWords] using hw
  | cons x ws => simp [joinWords, hw]

theorem joinWords_head (w : List Char) (rest : List (List Char)) (hw : w ≠ []) :
    (joinWords (w :: rest)).head? = w.head? := by
  cases rest with
  | nil => rfl
  | cons x ws =>
    cases w with
    | nil => exact absurd rfl hw
    | cons a as => simp [joinWords]

theorem getLast_append_cons (a : Char) (l : List Char) :
    ∀ w : List Char, (w ++ a :: l).getLast? = (a :: l).getLast? := by
  intro w
  induction w with
  | nil => rfl
  | cons c cs ih =>
    cases cs with
    | nil => simp [List.getLast?_cons_cons]
    | cons d ds =>
      simp only [List.cons_append] at ih ⊢
      rw [List.getLast?_cons_cons]
      exact ih

theorem joinWords_getLast (W : List (List Char)) (h : ∀ w ∈ W, w ≠ []) :
    ∀ c, (joinWords W).getLast? = some c → ∃ w ∈ W, w.getLast? = some c := by
  induction W with
  | nil => intro c hc; simp [joinWords] at hc
  | cons w rest ih =>
    intro c hc
    cases rest with
    | nil => exact ⟨w, List.mem_cons_self _ _, hc⟩
    | cons x ws =>
      have hne : joinWords (x :: ws) ≠ [] :=
        joinWords_ne_nil x ws (h x (List.mem_cons_of_mem _ (List.mem_cons_self _ _)))
      have h1 : (joinWords (w :: x :: ws)).getLast? = (joinWords (x :: ws)).getLast? := by
        rw [joinWords, getLast_append_cons]
        cases hj : joinWords (x :: ws) with
        | nil => exact absurd hj hne
        | cons u us => rw [List.getLast?_cons_cons]
      rw [h1] at hc
      rcases ih (by intro u hu; exact h u (List.mem_cons_of_mem _ hu)) c hc with ⟨u, hu, hu2⟩
      exact ⟨u, List.mem_cons_of_mem _ hu, hu2⟩

theorem chain_append_nosp (l2 : List Char)
    (h2 : l2.Chain' (fun a b => ¬(a = ' ' ∧ b = ' '))) :
    ∀ w : List Char, (∀ c ∈ w, ¬(c = ' ')) →
      (w ++ l2).Chain' (fun a b => ¬(a = ' ' ∧ b = ' ')) := by
  intro w
  induction w with
  | nil => intro _; simpa using h2
  | cons a as ih =>
    intro hnosp
    rw [List.cons_append]
    apply List.chain'_cons'.mpr
    constructor
    · intro y _ hab
      exact hnosp a (List.mem_cons_self _ _) hab.1
    · exact ih (by intro c hc; exact hnosp c (List.mem_cons_of_mem _ hc))

theorem joinWords_chain (W : List (List Char)) (hne : ∀ w ∈ W, w ≠ []) (hws : ∀ w ∈ W, WsFree w) :
    (joinWords W).Chain' (fun a b => ¬(a = ' ' ∧ b = ' ')) := by
  induction W with
  | nil => simp [joinWords]
  | cons w rest ih =>
    have hwfree : WsFree w := hws w (List.mem_cons_self _ _)
    have hnosp : ∀ c ∈ w, ¬(c = ' ') := by
      intro c hc he
      have := hwfree c hc
      rw [he] at this
      simp [isPySpace] at this
    cases rest with
    | nil =>
      rw [joinWords]
      have := chain_append_nosp [] (by simp) w hnosp
      simpa using this
    | cons x ws =>
      have ih' := ih (by intro u hu; exact hne u (List.mem_cons_of_mem _ hu))
        (by intro u hu; exact hws u (List.mem_cons_of_mem _ hu))
      rw [joinWords]
      apply chain_append_nosp _ _ w hnosp
      apply List.chain'_cons'.mpr
      refine ⟨?_, ih'⟩
      intro y hy hab
      have hxne : x ≠ [] := hne x (List.mem_cons_of_mem _ (List.mem_cons_self _ _))
      have hhead : (joinWords (x :: ws)).head? = x.head? := joinWords_head x ws hxne
      rw [Option.mem_def, hhead] at hy
      have hyx : y ∈ x := List.mem_of_mem_head? hy
      have := hws x (List.mem_cons_of_mem _ (List.mem_cons_self _ _)) y hyx
      rw [hab.2] at this
      simp [isPySpace] at this

theorem joinWords_only_space (W : List (List Char)) (hws : ∀ w ∈ W, WsFree w) :
    ∀ c ∈ joinWords W, isPySpace c = true → c = ' ' := by
  induction W with
  | nil => intro c hc; simp [joinWords] at hc
  | cons w rest ih =>
    intro c hc hsp
    cases rest with
    | nil =>
      rw [joinWords] at hc
      exact absurd hsp (by simp [hws w (List.mem_cons_self _ _) c hc])
    | cons x ws =>
      rw [joinWords] at hc
      rcases List.mem_append.mp hc with h1 | h2
      · exact absurd hsp (by simp [hws w (List.mem_cons_self _ _) c h1])
      · rcases List.mem_cons.mp h2 with h | h
        · exact h
        · exact ih (by intro u hu; exact hws u (List.mem_cons_of_mem _ hu)) c h hsp

theorem splitAux_word_prepend (l : List Char) :
    ∀ w acc, WsFree w → splitAux (w ++ l) acc = splitAux l (w.reverse ++ acc) := by
  intro w
  induction w with
  | nil => intro acc _; simp
  | cons c cs ih =>
    intro acc hfree
    have hc : isPySpace c = false := hfree c (List.mem_cons_self _ _)
    rw [List.cons_append]
    rw [splitAux]
    simp only [hc, Bool.false_eq_true, if_false]
    rw [ih (c :: acc) (by intro x hx; exact hfree x (List.mem_cons_of_mem _ hx))]
    simp

theorem splitAux_space (l : List Char) (acc : List Char) :
    splitAux (' ' :: l) acc = (if acc = [] then [] else [acc.reverse]) ++ splitAux l [] := by
  rw [splitAux]
  simp [isPySpace_space]

theorem pysplit_joinWords (W : List (List Char))
    (h : ∀ w ∈ W, w ≠ [] ∧ WsFree w) : pysplit (joinWords W) = W := by
  induction W with
  | nil => rfl
  | cons w rest ih =>
    cases rest with
    | nil =>
      have hw := h w (List.mem_cons_self _ _)
      unfold pysplit
      rw [joinWords]
      have := splitAux_word_prepend [] w [] hw.2
      rw [List.append_nil] at this
      rw [this]
      rw [splitAux]
      simp [hw.1]
    | cons x ws =>
      have hw := h w (List.mem_cons_self _ _)
      have ih' := ih (by intro u hu; exact h u (List.mem_cons_of_mem _ hu))
      unfold pysplit
      rw [joinWords]
      rw [splitAux_word_prepend _ w [] hw.2]
      rw [List.append_nil]
      rw [splitAux_space]
      have hwr : w.reverse ≠ [] := by simpa using hw.1
      rw [if_neg hwr]
      unfold pysplit at ih'
      rw [ih']
      simp

theorem splitAux_eq_nil_iff (l : List Char) :
    ∀ acc, (splitAux l acc = [] ↔ (acc = [] ∧ ∀ c ∈ l, isPySpace c = true)) := by
  induction l with
  | nil =>
    intro acc
    constructor
    · intro h
      by_cases ha : acc = []
      · exact ⟨ha, by intro c hc; simp at hc⟩
      · rw [splitAux, if_neg ha] at h; simp at h
    · intro h; rw [splitAux, if_pos h.1]
  | cons c cs ih =>
    intro acc
    by_cases hc : isPySpace c
    · rw [splitAux]
      simp only [hc, if_true]
      constructor
      · intro h
        rcases List.append_eq_nil.mp h with ⟨h1, h2⟩
        have h2' := (ih []).mp h2
        refine ⟨?_, ?_⟩
        · by_cases ha : acc = []
          · exact ha
          · rw [if_neg ha] at h1; simp at h1
        · intro x hx
          rcases List.mem_cons.mp hx with h | h
          · subst h; exact hc
          · exact h2'.2 x h
      · intro h
        rw [if_pos h.1]
        simp only [List.nil_append]
        exact (ih []).mpr ⟨rfl, by intro x hx; exact h.2 x (List.mem_cons_of_mem _ hx)⟩
    · rw [splitAux]
      simp only [hc, Bool.false_eq_true, if_false]
      constructor
      · intro h
        have := (ih (c :: acc)).mp h
        simp at this
      · intro h
        exact absurd (h.2 c (List.mem_cons_self _ _)) (by simpa using hc)

theorem joinWords_eq_nil_iff (W : List (List Char)) (h : ∀ w ∈ W, w ≠ []) :
    (joinWords W = [] ↔ W = []) := by
  cases W with
  | nil => simp [joinWords]
  | cons w rest =>
    constructor
    · intro hj
      exact absurd hj (joinWords_ne_nil w rest (h w (List.mem_cons_self _ _)))
    · intro hw; simp at hw

/-- The canonical-form invariant used to state the whitespace-canonicalization
claims: only plain spaces as whitespace, never two adjacent spaces, and no
space at either end. -/
def Canonical (l : List Char) : Prop :=
  (∀ c ∈ l, isPySpace c = true → c = ' ') ∧
  l.Chain' (fun a b => ¬(a = ' ' ∧ b = ' ')) ∧
  l.head? ≠ some ' ' ∧ l.getLast? ≠ some ' '

theorem strip_spaces_canonical (s : String) : Canonical (strip_spaces s).data := by
  have hwords := pysplit_words s.data
  have hne : ∀ w ∈ pysplit s.data, w ≠ [] := fun w hw => (hwords w hw).1
  have hws : ∀ w ∈ pysplit s.data, WsFree w := fun w hw => (hwords w hw).2
  refine ⟨?_, ?_, ?_, ?_⟩
  · exact joinWords_only_space _ hws
  · exact joinWords_chain _ hne hws
  · intro hh
    have hh' : (joinWords (pysplit s.data)).head? = some ' ' := hh
    cases hW : pysplit s.data with
    | nil =>
      rw [hW] at hh'
      simp [joinWords] at hh'
    | cons w rest =>
      have hwne : w ≠ [] := hne w (by rw [hW]; exact List.mem_cons_self _ _)
      have head_eq : (joinWords (w :: rest)).head? = w.head? := joinWords_head w rest hwne
      rw [hW, head_eq] at hh'
      have hmem : ' ' ∈ w := List.mem_of_mem_head? (by rw [Option.mem_def]; exact hh')
      have := hws w (by rw [hW]; exact List.mem_cons_self _ _) ' ' hmem
      simp [isPySpace_space] at this
  · intro hl
    have hl' : (joinWords (pysplit s.data)).getLast? = some ' ' := hl
    rcases joinWords_getLast (pysplit s.data) hne ' ' hl' with ⟨w, hw, hw2⟩
    have hmem : ' ' ∈ w := List.mem_of_mem_getLast? (by rw [Option.mem_def]; exact hw2)
    have := hws w hw ' ' hmem
    simp [isPySpace_space] at this

theorem strip_spaces_content (s : String) :
    (strip_spaces s).data.filter (fun c => !isPySpace c) =
      s.data.filter (fun c => !isPySpace c) := by
  have hws : ∀ w ∈ pysplit s.data, WsFree w := fun w hw => (pysplit_words s.data w hw).2
  rw [strip_spaces]
  show (joinWords (pysplit s.data)).filter (fun c => !isPySpace c) = _
  rw [joinWords_filter _ hws]
  rw [pysplit]
  rw [flatWords_splitAux]
  simp

theorem strip_spaces_idem_core (s : String) :
    strip_spaces (strip_spaces s) = strip_spaces s := by
  have hwords := pysplit_words s.data
  rw [strip_spaces, strip_spaces]
  show (⟨joinWords (pysplit (joinWords (pysplit s.data)))⟩ : String) = _
  rw [pysplit_joinWords _ hwords]

/-- The spec's version of the boundary lookbehind, following its words: the
character before the match must be absent or "not a letter, digit, or
underscore".  (The code's `okBefore` instead allows an underscore.) -/
def specOkBefore : Option Char → Bool
  | none => true
  | some c => !(c.isAlphanum || c == '_')

/-- The spec's version of the boundary lookahead (underscore also blocks). -/
def specOkAfter : List Char → Bool
  | [] => true
  | c :: _ => !(c.isAlphanum || c == '_')

theorem subAux_unlimited (pat : List Char) (niw : Bool) (repl : List TmplItem) :
    ∀ (fuel : Nat) (prev : Option Char) (s : List Char) (k : Nat), s.length < k →
      subAux pat niw repl fuel prev s (some k) = subAux pat niw repl fuel prev s none := by
  intro fuel
  induction fuel with
  | zero =>
    intro prev s k hk
    cases s with
    | nil =>
      have hk0 : ¬(some k = some (0 : Nat)) := by simp; omega
      simp [subAux, hk0]
    | cons c cs => simp [subAux]
  | succ n ih =>
    intro prev s k hk
    cases s with
    | nil =>
      have hk0 : ¬(some k = some (0 : Nat)) := by simp; omega
      simp [subAux, hk0]
    | cons c cs =>
      obtain ⟨k', rfl⟩ : ∃ k', k = k' + 1 := ⟨k - 1, by omega⟩
      have hk0 : ¬(some (k' + 1) = some (0 : Nat)) := by simp
      by_cases hm : matchesAtB pat niw prev (c :: cs)
      · cases pat with
        | nil =>
          have h1 : cs.length < k' := by
            simp only [List.length_cons] at hk; omega
          simp only [subAux, hk0, if_false, hm, if_true, decr]
          rw [ih (some c) cs k' h1]
          simp
        | cons p ps =>
          have h1 : (cs.drop ps.length).length < k' := by
            have := List.length_drop ps.length cs
            simp only [List.length_cons] at hk
            omega
          simp only [subAux, hk0, if_false, hm, if_true, decr]
          rw [ih _ _ k' h1]
          simp
      · have h1 : cs.length < k' + 1 := by
          simp only [List.length_cons] at hk; omega
        simp only [subAux, hk0, if_false, hm, Bool.false_eq_true, decr]
        rw [ih (some c) cs (k' + 1) h1]
        simp

theorem ireplace_empty_repl (data old : String) (count : Nat) (niw : Bool) :
    ireplace data old "" count niw = .ok (ireplaceCore data old [] count niw) := rfl

theorem ireplaceCore_empty_text_empty_repl (old : String) (count : Nat) (niw : Bool) :
    ireplaceCore "" old [] count niw = "" := by
  have h : subAux (old.data.map Char.toLower) niw [] "".data.length none "".data
      (if count = 0 then none else some count) = [] := by
    show subAux (old.data.map Char.toLower) niw [] 0 none []
      (if count = 0 then none else some count) = []
    by_cases hc : count = 0 <;> simp [subAux, hc, expandRepl]
  unfold ireplaceCore
  rw [h]

theorem remove_words_empty_text (words : List String) (niw : Bool) :
    remove_words "" words niw = "" := by
  have hfold : words.foldl (fun t w => ireplaceCore t w [] 0 niw) "" = "" := by
    induction words with
    | nil => rfl
    | cons w ws ih =>
      rw [List.foldl_cons, ireplaceCore_empty_text_empty_repl]
      exact ih
  show (⟨joinWords (pysplit (words.foldl (fun t w => ireplaceCore t w [] 0 niw) "").data)⟩ :
    String) = ""
  rw [hfold]
  rfl

/-! ## Claim theorems -/

/-- C1 (corrected): a boundary-enforced match succeeds only when the character
immediately before the matched occurrence is absent or is not a letter and not
a digit, and the character immediately after is absent or is not a letter and
not a digit.  (Contrary to the claim, an underscore does NOT block the match:
`[^\W_]` excludes the underscore, so an adjacent underscore satisfies both
lookarounds — see the counterexample.) -/
theorem c1_boundary_nonalnum (pat : List Char) (prev : Option Char) (s : List Char)
    (h : matchesAtB pat true prev s = true) :
    (∀ c, prev = some c → (c.isAlpha = false ∧ c.isDigit = false)) ∧
    (∀ c, (s.drop pat.length).head? = some c → (c.isAlpha = false ∧ c.isDigit = false)) := by
  unfold matchesAtB at h
  simp only [Bool.not_true, Bool.false_or, Bool.and_eq_true] at h
  obtain ⟨-, hb, ha⟩ := h
  constructor
  · intro c hc
    rw [hc] at hb
    unfold okBefore at hb
    simp only [Bool.not_eq_true'] at hb
    unfold Char.isAlphanum at hb
    simpa using hb
  · intro c hc
    cases hd : s.drop pat.length with
    | nil => rw [hd] at hc; simp at hc
    | cons d ds =>
      rw [hd] at hc
      simp only [List.head?_cons, Option.some.injEq] at hc
      subst hc
      rw [hd] at ha
      unfold okAfter at ha
      simp only [Bool.not_eq_true'] at ha
      unfold Char.isAlphanum at ha
      simpa using ha

/-- C1 witness: a concrete boundary-enforced match (with an underscore on both
sides, which the code's lookarounds accept). -/
theorem c1_boundary_nonalnum_witness :
    matchesAtB "proper".data true (some '_') "proper_x".data = true ∧
    ((∀ c, (some '_' : Option Char) = some c → (c.isAlpha = false ∧ c.isDigit = false)) ∧
     (∀ c, ("proper_x".data.drop "proper".data.length).head? = some c →
        (c.isAlpha = false ∧ c.isDigit = false))) :=
  ⟨by decide, c1_boundary_nonalnum "proper".data (some '_') "proper_x".data (by decide)⟩

/-- C1 counterexample: the claim says a token immediately preceded by an
underscore is not matched, so `ireplace("a_proper", "proper", "",
not_in_word=True)` would return `"a_proper"` unchanged; the code's lookbehind
`(?<![^\W_])` accepts the underscore and the token is removed.  The spec-worded
boundary test `specOkBefore` rejects the underscore while the code's
`okBefore` accepts it. -/
theorem c1_counterexample :
    ireplace "a_proper" "proper" "" 0 true = Except.ok "a_" ∧
    ("a_" : String) ≠ "a_proper" ∧
    specOkBefore (some '_') = false ∧ okBefore (some '_') = true :=
  ⟨rfl, by decide, rfl, rfl⟩

/-- C2 (corrected): `remove_words` called without an explicit flag uses
`not_in_word=False` (the Python default), i.e. no boundary enforcement. -/
theorem c2_default_flag : ∀ (text : String) (words : List String),
    remove_words text words = remove_words text words false :=
  fun _ _ => rfl

/-- C2 counterexample: with the default flag, removing `"se"` from `"Season"`
does match inside the word (yielding `"ason"`), whereas with
`not_in_word=True` it does not; so the default is not boundary-enforced. -/
theorem c2_counterexample :
    remove_words "Season" ["se"] = "ason" ∧
    remove_words "Season" ["se"] true = "Season" ∧
    ("ason" : String) ≠ "Season" :=
  ⟨rfl, rfl, by decide⟩

/-- C3 (corrected): with an empty (hence always-valid) replacement template,
`ireplace` never fails; the empty input yields the empty output; `remove_words`
and `strip_spaces` never fail, map the empty string to the empty string, and
`remove_words` with an empty vocabulary returns the canonicalized input. -/
theorem c3_no_error :
    (∀ (text old : String) (count : Nat) (niw : Bool),
        ireplace text old "" count niw = .ok (ireplaceCore text old [] count niw)) ∧
    (∀ (old : String) (count : Nat) (niw : Bool), ireplace "" old "" count niw = .ok "") ∧
    strip_spaces "" = "" ∧
    (∀ (words : List String) (niw : Bool), remove_words "" words niw = "") ∧
    remove_words "  A   B  " [] = "A B" := by
  refine ⟨fun _ _ _ _ => rfl, ?_, rfl, fun words niw => remove_words_empty_text words niw, rfl⟩
  intro old count niw
  rw [ireplace_empty_repl, ireplaceCore_empty_text_empty_repl]

/-- C3 counterexample: `re.sub` parses the replacement template eagerly and
raises on an invalid escape, so `ireplace("abc", "b", "\d")` raises rather
than returning a string; and `ireplace("", "", "x")` maps the empty input to
`"x"`, not to the empty string. -/
theorem c3_counterexample :
    ireplace "abc" "b" "\\d" 0 false = Except.error "bad escape" ∧
    ireplace "" "" "x" 0 false = Except.ok "x" ∧
    ("x" : String) ≠ "" :=
  ⟨rfl, rfl, by decide⟩

/-- C4: the search term is matched as an escaped literal: boundary-enforced
removal of `"x.264"` leaves `"Movie.x264.Title"` unchanged (the `.` is not a
wildcard), while on `"Movie.x.264.Title"` it matches and yields
`"Movie..Title"`. -/
theorem c4_literal_token :
    ireplace "Movie.x264.Title" "x.264" "" 0 true = Except.ok "Movie.x264.Title" ∧
    ireplace "Movie.x.264.Title" "x.264" "" 0 true = Except.ok "Movie..Title" :=
  ⟨rfl, rfl⟩

/-- C5: boundary-enforced removal does not match a token embedded in a larger
alphanumeric run: `"se"` is not removed from `"Bleach Season 02"`, while
`"season"` is. -/
theorem c5_embedded_token :
    remove_words "Bleach Season 02" ["se"] true = "Bleach Season 02" ∧
    remove_words "Bleach Season 02" ["season"] true = "Bleach 02" :=
  ⟨rfl, rfl⟩

/-- C6: `strip_spaces` collapses every whitespace run into a single interior
space and removes leading/trailing whitespace: the example evaluates as
specified, the empty input yields the empty output, every output is in
canonical form (only plain single, interior spaces), and the non-whitespace
content is preserved. -/
theorem c6_strip_spaces :
    strip_spaces "  The   Matrix\t\n1999  " = "The Matrix 1999" ∧
    strip_spaces "" = "" ∧
    (∀ s : String, Canonical (strip_spaces s).data) ∧
    (∀ s : String, (strip_spaces s).data.filter (fun c => !isPySpace c) =
        s.data.filter (fun c => !isPySpace c)) :=
  ⟨rfl, rfl, strip_spaces_canonical, strip_spaces_content⟩

/-- C7: whitespace canonicalization is idempotent. -/
theorem c7_idempotent : ∀ s : String, strip_spaces (strip_spaces s) = strip_spaces s :=
  strip_spaces_idem_core

/-- C8: matching is insensitive to the casing of the search term: terms with
the same lowercasing produce identical results for every input, replacement,
count and flag. -/
theorem c8_term_case_insensitive (old1 old2 : String)
    (h : old1.data.map Char.toLower = old2.data.map Char.toLower) :
    ∀ (data new : String) (count : Nat) (niw : Bool),
      ireplace data old1 new count niw = ireplace data old2 new count niw := by
  intro data new count niw
  unfold ireplace
  cases hp : parseTemplate new with
  | error e => rfl
  | ok items =>
    show Except.ok (ireplaceCore data old1 items count niw) =
      Except.ok (ireplaceCore data old2 items count niw)
    unfold ireplaceCore
    rw [h]

/-- C8 witness: removing `"PROPER"` and `"proper"` from
`"Show.Name.PROPER.720p"` produce identical results. -/
theorem c8_term_case_insensitive_witness :
    ("PROPER".data.map Char.toLower = "proper".data.map Char.toLower) ∧
    ireplace "Show.Name.PROPER.720p" "PROPER" "" 0 false =
      ireplace "Show.Name.PROPER.720p" "proper" "" 0 false :=
  ⟨by decide,
    c8_term_case_insensitive "PROPER" "proper" (by decide) "Show.Name.PROPER.720p" "" 0 false⟩

/-- C9: the count argument limits the number of replacements (`count=1` on
`"banana"` replaces only the first `"a"`), and `count=0` (the default) is
unlimited: it behaves exactly like any count larger than the input length. -/
theorem c9_count_limit :
    ireplace "banana" "a" "o" 1 false = Except.ok "bonana" ∧
    ireplace "banana" "a" "o" 0 false = Except.ok "bonono" ∧
    (∀ (data old new : String) (niw : Bool),
      ireplace data old new 0 niw = ireplace data old new (data.length + 1) niw) := by
  refine ⟨rfl, rfl, ?_⟩
  intro data old new niw
  unfold ireplace
  cases hp : parseTemplate new with
  | error e => rfl
  | ok items =>
    show Except.ok (ireplaceCore data old items 0 niw) =
      Except.ok (ireplaceCore data old items (data.length + 1) niw)
    unfold ireplaceCore
    have h0 : (if (0 : Nat) = 0 then (none : Option Nat) else some 0) = none := rfl
    have h1 : (if data.length + 1 = 0 then (none : Option Nat) else some (data.length + 1)) =
        some (data.length + 1) := by simp
    rw [h0, h1]
    have hlen : data.data.length < data.length + 1 := Nat.lt_succ_of_le (Nat.le_refl _)
    rw [subAux_unlimited (old.data.map Char.toLower) niw items data.data.length none
      data.data (data.length + 1) hlen]

/-- C10 (implicit): `strip_spaces` returns the empty string exactly when the
input consists only of whitespace characters. -/
theorem c10_all_whitespace : ∀ s : String,
    (strip_spaces s = "" ↔ s.data.all isPySpace = true) := by
  intro s
  have hwords := pysplit_words s.data
  constructor
  · intro h
    have hl : joinWords (pysplit s.data) = [] := congrArg String.data h
    have hW : pysplit s.data = [] :=
      (joinWords_eq_nil_iff _ (fun w hw => (hwords w hw).1)).mp hl
    have hall := (splitAux_eq_nil_iff s.data []).mp hW
    rw [List.all_eq_true]
    exact hall.2
  · intro h
    have hW : pysplit s.data = [] :=
      (splitAux_eq_nil_iff s.data []).mpr ⟨rfl, List.all_eq_true.mp h⟩
    show (⟨joinWords (pysplit s.data)⟩ : String) = ""
    rw [hW]
    rfl

end TitleParser
